import Mathlib

/-!
Verification of the dunovo `seqan_align.cpp` multiple-sequence-alignment
program against its natural-language specification.

The C++ source delegates the alignment computation itself to the external
SeqAn library call `globalMsaAlignment`; the specification re-describes that
engine explicitly (pairwise edit-distance DP with a fixed tie-break, a
progressive profile merge, and a row-reconstruction pass).  The pairwise
engine and the profile merge below are therefore modelled from the spec's
own algorithm description, while the row reconstruction, `align`'s in-place
pointer behaviour and `main` are modelled directly from the source.
-/

namespace Dunovo

/-- Edit operation of a pairwise alignment trace: `diag` consumes one
character of each sequence (match/substitution), `del` consumes one
character of the first sequence only (vertical move), `ins` consumes one
character of the second sequence only (horizontal move). -/
inductive Op where
  | diag : Op
  | del : Op
  | ins : Op
deriving DecidableEq, Repr

/-- Modelled from the spec: unit mismatch cost of the Pairwise Distance
Engine, `{match=0, mismatch=1}`. -/
def mismatchCost (a b : Char) : Nat := if a = b then 0 else 1

/-- Auxiliary recursion for `editDistance`: given the distance function for
the tail `as`, computes distances of `a :: as` against any second sequence. -/
def edAux (a : Char) (recur : List Char → Nat) : List Char → Nat
  | [] => recur [] + 1
  | b :: bs =>
    min (recur bs + mismatchCost a b)
      (min (recur (b :: bs) + 1) (edAux a recur bs + 1))

/-- Modelled from the spec: the Distance Score of the Pairwise Distance
Engine (the SeqAn `globalMsaAlignment` scoring is not part of the repository
source), i.e. Levenshtein edit distance under unit costs
`{match=0, mismatch=1, insertion=1, deletion=1}`. -/
def editDistance : List Char → List Char → Nat
  | [], bs => bs.length
  | a :: as, bs => edAux a (editDistance as) bs

/-- Auxiliary recursion for `fwdGreedy`. -/
def fgAux (a : Char) (as : List Char) (recur : List Char → List Op) :
    List Char → List Op
  | [] => List.replicate (as.length + 1) Op.del
  | b :: bs =>
    if editDistance as bs + mismatchCost a b = editDistance (a :: as) (b :: bs) then
      Op.diag :: recur bs
    else if editDistance as (b :: bs) + 1 = editDistance (a :: as) (b :: bs) then
      Op.del :: recur (b :: bs)
    else
      Op.ins :: fgAux a as recur bs

/-- Greedy optimal-trace construction: at each step take the first of
diagonal, vertical (deletion), horizontal (insertion) whose cost equation is
satisfied by the edit-distance table. -/
def fwdGreedy : List Char → List Char → List Op
  | [], bs => List.replicate bs.length Op.ins
  | a :: as, bs => fgAux a as (fwdGreedy as) bs

/-- Modelled from the spec: the Edit Script of the Pairwise Distance Engine,
obtained by backtracing the DP table from cell `(m, n)` to `(0, 0)`
preferring diagonal over vertical over horizontal, then reversing into
forward order.  Backtracing prefixes from the last cell is realised as a
forward greedy walk over the reversed sequences, reversed back at the end. -/
def editScript (A B : List Char) : List Op := (fwdGreedy A.reverse B.reverse).reverse

/-- Cost of applying an edit script to transform the first sequence into the
second; `none` when the script does not validly consume both sequences. -/
def scriptCost : List Op → List Char → List Char → Option Nat
  | [], [], [] => some 0
  | Op.diag :: t, a :: as, b :: bs =>
    (scriptCost t as bs).map (fun k => mismatchCost a b + k)
  | Op.del :: t, _ :: as, bs => (scriptCost t as bs).map (fun k => 1 + k)
  | Op.ins :: t, as, _ :: bs => (scriptCost t as bs).map (fun k => 1 + k)
  | _, _, _ => none

/-- An Alignment Row: one profile row, `none` marking a gap column (the
SeqAn `isGap` view of a row). -/
abbrev Row := List (Option Char)

/-- The non-gap characters of a row, in order. -/
def rowChars (r : Row) : List Char := r.filterMap id

/-- Flatten a row into plain characters, writing `'-'` for gap columns. -/
def render (r : Row) : List Char := r.map (fun o => o.getD '-')

/-- Modelled from the spec: applying one merge's edit script to an existing
profile row — a `del` operation (a new-sequence character with no profile
counterpart) inserts a gap column, `diag` and `ins` keep the row's next
column. -/
def padRow : List Op → Row → Row
  | [], r => r
  | Op.del :: t, r => none :: padRow t r
  | Op.diag :: t, c :: r => c :: padRow t r
  | Op.ins :: t, c :: r => c :: padRow t r
  | Op.diag :: t, [] => padRow t []
  | Op.ins :: t, [] => padRow t []

/-- Modelled from the spec: the gapped row of the newly merged sequence —
`diag` and `del` consume its next character, `ins` (a profile column with no
counterpart in the new sequence) contributes a gap. -/
def newRow : List Op → List Char → Row
  | [], _ => []
  | Op.diag :: t, c :: s => some c :: newRow t s
  | Op.del :: t, c :: s => some c :: newRow t s
  | Op.ins :: t, s => none :: newRow t s
  | Op.diag :: t, [] => newRow t []
  | Op.del :: t, [] => newRow t []

/-- Modelled from the spec: Profile Alignment / Merge.  An empty profile is
seeded with the sequence (zero gaps); otherwise the sequence is aligned
against the flattened first row of the profile, every existing row is padded
with the resulting gap columns, and the new gapped row is appended. -/
def profileMerge (P : List Row) (s : List Char) : List Row :=
  match P with
  | [] => [s.map some]
  | R :: rest =>
    ((R :: rest).map (padRow (editScript s (render R)))) ++
      [newRow (editScript s (render R)) s]

/-- Modelled from the spec: the MSA engine (the SeqAn `globalMsaAlignment`
call in the source, whose implementation is not part of the repository) —
progressive merging of the sequences in input order into a profile seeded
from the first sequence. -/
def globalMsaAlignment (seqs : List (List Char)) : List Row :=
  seqs.foldl profileMerge []

/-- The Row Reconstruction loop body of `align` (source lines 61-77): walk
the alignment row; a gap column emits `'-'` and decrements the offset, a
non-gap column at position `j` reads the original sequence at `j + offset`.
The cursor `k` here is exactly `j + offset` of the source. -/
def recGo (s : List Char) : Nat → Row → List Char
  | _, [] => []
  | k, none :: r => '-' :: recGo s k r
  | k, some _ :: r => s.getD k '?' :: recGo s (k + 1) r

/-- Reconstruction of one gapped output string from an alignment row and the
corresponding original input string (source lines 62-74). -/
def reconstructRow (r : Row) (s : List Char) : List Char := recGo s 0 r

/-- The reconstruction loop of `align` over all rows (source lines 61-77):
entry `i` of the sequence array is replaced by the string reconstructed from
row `i`; entries beyond the rows are left unchanged. -/
def runReconstruction : List Row → List (List Char) → List (List Char)
  | [], ss => ss
  | _ :: _, [] => []
  | r :: P, s :: ss => reconstructRow r s :: runReconstruction P ss

/-- Remove all gap symbols from a string. -/
def stripGaps (l : List Char) : List Char := l.filter (fun c => decide (c ≠ '-'))

/-- The `align` function of the source (value level): run the MSA engine on
the input sequences and reconstruct one gapped string per input.  The
source performs no input validation and has no failure path. -/
def align (seqs : List (List Char)) : List (List Char) :=
  runReconstruction (globalMsaAlignment seqs) seqs

/-- Modelled from the source `main` (lines 88-96): the command-line
arguments after the program name are aligned and printed one per line; the
printed lines are exactly `align` of the inputs. -/
def mainOutput (argvTail : List (List Char)) : List (List Char) := align argvTail

/-- A small pointer-level memory model for the in-place behaviour of
`align`: a heap of arrays of string pointers, a heap of strings, and an
allocation watermark (every live pointer is below `next`). -/
structure Mem where
  arrays : Nat → List Nat
  strs : Nat → List Char
  next : Nat

/-- Pointers of `n` fresh allocations starting at watermark `b`. -/
def allocPtrs : Nat → Nat → List Nat
  | _, 0 => []
  | b, n + 1 => b :: allocPtrs (b + 1) n

/-- The input strings an `align(nseq, seqs)` call reads through the pointer
array `ap`. -/
def alignInputs (nseq ap : Nat) (m : Mem) : List (List Char) :=
  ((m.arrays ap).take nseq).map m.strs

/-- The gapped output strings the call produces. -/
def alignOuts (nseq ap : Nat) (m : Mem) : List (List Char) :=
  runReconstruction (globalMsaAlignment (alignInputs nseq ap m)) (alignInputs nseq ap m)

/-- Pointer-level model of `align` (source lines 34-86): each of the first
`nseq` entries of the array `ap` is overwritten with a pointer to a freshly
`malloc`ed gapped string, and the function returns the very array pointer it
was given (`return seqs`). -/
def alignC (nseq ap : Nat) (m : Mem) : Nat × Mem :=
  (ap,
    { arrays := fun q =>
        if q = ap then allocPtrs m.next nseq ++ (m.arrays q).drop nseq
        else m.arrays q,
      strs := fun p =>
        if m.next ≤ p ∧ p - m.next < nseq then (alignOuts nseq ap m).getD (p - m.next) []
        else m.strs p,
      next := m.next + nseq })

/-- A concrete two-string heap used to instantiate the frame theorem. -/
def M0 : Mem :=
  { arrays := fun _ => [0, 1], strs := fun _ => ['A', 'C'], next := 2 }

/-- All rows of a profile have the same length (the column count). -/
def SameLen (P : List Row) : Prop := ∀ r ∈ P, ∀ r' ∈ P, r.length = r'.length

/-! Basic equations of the edit-distance table. -/

theorem editDistance_nil_left (bs : List Char) : editDistance [] bs = bs.length := rfl

theorem editDistance_nil_right (as : List Char) : editDistance as [] = as.length := by
  induction as with
  | nil => rfl
  | cons a as ih => simp [editDistance, edAux, ih]

theorem editDistance_cons_cons (a : Char) (as : List Char) (b : Char) (bs : List Char) :
    editDistance (a :: as) (b :: bs) =
      min (editDistance as bs + mismatchCost a b)
        (min (editDistance as (b :: bs) + 1) (editDistance (a :: as) bs + 1)) := rfl

theorem editDistance_le_diag (a : Char) (as : List Char) (b : Char) (bs : List Char) :
    editDistance (a :: as) (b :: bs) ≤ editDistance as bs + mismatchCost a b := by
  rw [editDistance_cons_cons]; exact min_le_left _ _

theorem editDistance_le_del (a : Char) (as bs : List Char) :
    editDistance (a :: as) bs ≤ editDistance as bs + 1 := by
  cases bs with
  | nil => simp [editDistance_nil_right]
  | cons b bs =>
    rw [editDistance_cons_cons]
    exact le_trans (min_le_right _ _) (min_le_left _ _)

theorem editDistance_le_ins (as : List Char) (b : Char) (bs : List Char) :
    editDistance as (b :: bs) ≤ editDistance as bs + 1 := by
  cases as with
  | nil => simp [editDistance]
  | cons a as =>
    rw [editDistance_cons_cons]
    exact le_trans (min_le_right _ _) (min_le_right _ _)

/-! Inversion of `scriptCost`. -/

theorem scriptCost_nil_inv (as bs : List Char) (k : Nat)
    (h : scriptCost [] as bs = some k) : as = [] ∧ bs = [] ∧ k = 0 := by
  cases as <;> cases bs <;> simp_all [scriptCost]

theorem scriptCost_diag_inv (t : List Op) (as bs : List Char) (k : Nat)
    (h : scriptCost (Op.diag :: t) as bs = some k) :
    ∃ a as' b bs' k', as = a :: as' ∧ bs = b :: bs' ∧
      scriptCost t as' bs' = some k' ∧ k = mismatchCost a b + k' := by
  cases as with
  | nil => cases bs <;> simp [scriptCost] at h
  | cons a as' =>
    cases bs with
    | nil => simp [scriptCost] at h
    | cons b bs' =>
      simp only [scriptCost, Option.map_eq_some'] at h
      obtain ⟨k', hk', rfl⟩ := h
      exact ⟨a, as', b, bs', k', rfl, rfl, hk', rfl⟩

theorem scriptCost_del_inv (t : List Op) (as bs : List Char) (k : Nat)
    (h : scriptCost (Op.del :: t) as bs = some k) :
    ∃ a as' k', as = a :: as' ∧ scriptCost t as' bs = some k' ∧ k = 1 + k' := by
  cases as with
  | nil => cases bs <;> simp [scriptCost] at h
  | cons a as' =>
    simp only [scriptCost, Option.map_eq_some'] at h
    obtain ⟨k', hk', rfl⟩ := h
    exact ⟨a, as', k', rfl, hk', rfl⟩

theorem scriptCost_ins_inv (t : List Op) (as bs : List Char) (k : Nat)
    (h : scriptCost (Op.ins :: t) as bs = some k) :
    ∃ b bs' k', bs = b :: bs' ∧ scriptCost t as bs' = some k' ∧ k = 1 + k' := by
  cases bs with
  | nil => cases as <;> simp [scriptCost] at h
  | cons b bs' =>
    cases as with
    | nil =>
      simp only [scriptCost, Option.map_eq_some'] at h
      obtain ⟨k', hk', rfl⟩ := h
      exact ⟨b, bs', k', rfl, hk', rfl⟩
    | cons a as' =>
      simp only [scriptCost, Option.map_eq_some'] at h
      obtain ⟨k', hk', rfl⟩ := h
      exact ⟨b, bs', k', rfl, hk', rfl⟩

theorem scriptCost_append (t1 t2 : List Op) (as1 bs1 as2 bs2 : List Char) (k1 k2 : Nat)
    (h1 : scriptCost t1 as1 bs1 = some k1) (h2 : scriptCost t2 as2 bs2 = some k2) :
    scriptCost (t1 ++ t2) (as1 ++ as2) (bs1 ++ bs2) = some (k1 + k2) := by
  induction t1 generalizing as1 bs1 k1 with
  | nil =>
    obtain ⟨rfl, rfl, rfl⟩ := scriptCost_nil_inv _ _ _ h1
    simpa using h2
  | cons op t ih =>
    cases op with
    | diag =>
      obtain ⟨a, as', b, bs', k', rfl, rfl, hc, rfl⟩ := scriptCost_diag_inv _ _ _ _ h1
      simp [scriptCost, ih _ _ _ hc, Nat.add_assoc]
    | del =>
      obtain ⟨a, as', k', rfl, hc, rfl⟩ := scriptCost_del_inv _ _ _ _ h1
      simp [scriptCost, ih _ _ _ hc, Nat.add_assoc]
    | ins =>
      obtain ⟨b, bs', k', rfl, hc, rfl⟩ := scriptCost_ins_inv _ _ _ _ h1
      simp [scriptCost, ih _ _ _ hc, Nat.add_assoc]

/-! Minimality: the edit distance is a lower bound on the cost of every
valid edit script. -/

theorem editDistance_le_scriptCost (t : List Op) :
    ∀ as bs : List Char, ∀ k : Nat,
      scriptCost t as bs = some k → editDistance as bs ≤ k := by
  induction t with
  | nil =>
    intro as bs k h
    obtain ⟨rfl, rfl, rfl⟩ := scriptCost_nil_inv _ _ _ h
    simp [editDistance]
  | cons op t ih =>
    intro as bs k h
    cases op with
    | diag =>
      obtain ⟨a, as', b, bs', k', rfl, rfl, hc, rfl⟩ := scriptCost_diag_inv _ _ _ _ h
      have hk := ih _ _ _ hc
      have hd := editDistance_le_diag a as' b bs'
      omega
    | del =>
      obtain ⟨a, as', k', rfl, hc, rfl⟩ := scriptCost_del_inv _ _ _ _ h
      have hk := ih _ _ _ hc
      have hd := editDistance_le_del a as' bs
      omega
    | ins =>
      obtain ⟨b, bs', k', rfl, hc, rfl⟩ := scriptCost_ins_inv _ _ _ _ h
      have hk := ih _ _ _ hc
      have hd := editDistance_le_ins as b bs'
      omega

/-! Achievability: the greedy backtrace produces a valid script whose cost
is exactly the edit distance. -/

theorem scriptCost_replicate_ins (bs : List Char) :
    scriptCost (List.replicate bs.length Op.ins) [] bs = some bs.length := by
  induction bs with
  | nil => rfl
  | cons b bs ih =>
    simp only [List.length_cons, List.replicate_succ, scriptCost, ih, Option.map_some']
    simp [Nat.add_comm]

theorem scriptCost_replicate_del (as : List Char) :
    scriptCost (List.replicate as.length Op.del) as [] = some as.length := by
  induction as with
  | nil => rfl
  | cons a as ih =>
    simp only [List.length_cons, List.replicate_succ, scriptCost, ih, Option.map_some']
    simp [Nat.add_comm]

theorem greedy_valid (n : Nat) :
    ∀ as bs : List Char, as.length + bs.length ≤ n →
      scriptCost (fwdGreedy as bs) as bs = some (editDistance as bs) := by
  induction n with
  | zero =>
    intro as bs h
    have has : as = [] := by cases as <;> simp_all
    have hbs : bs = [] := by cases bs <;> simp_all
    subst has; subst hbs
    rfl
  | succ n ih =>
    intro as bs h
    cases as with
    | nil => simpa [fwdGreedy, editDistance] using scriptCost_replicate_ins bs
    | cons a as' =>
      cases bs with
      | nil =>
        have hrep := scriptCost_replicate_del (a :: as')
        simpa [fwdGreedy, fgAux, editDistance_nil_right, List.length_cons] using hrep
      | cons b bs' =>
        show scriptCost (fgAux a as' (fwdGreedy as') (b :: bs')) _ _ = _
        rw [fgAux]
        split_ifs with h1 h2
        · have hrec := ih as' bs' (by simp at h; omega)
          simp only [scriptCost, hrec, Option.map_some']
          rw [show mismatchCost a b + editDistance as' bs' =
                editDistance as' bs' + mismatchCost a b from Nat.add_comm _ _, h1]
        · have hrec := ih as' (b :: bs') (by simp at h ⊢; omega)
          simp only [scriptCost, hrec, Option.map_some']
          rw [show (1 : Nat) + editDistance as' (b :: bs') =
                editDistance as' (b :: bs') + 1 from Nat.add_comm _ _, h2]
        · have hrec := ih (a :: as') bs' (by simp at h ⊢; omega)
          have hthird : editDistance (a :: as') (b :: bs') = editDistance (a :: as') bs' + 1 := by
            have e := editDistance_cons_cons a as' b bs'
            rcases min_choice (editDistance as' bs' + mismatchCost a b)
                (min (editDistance as' (b :: bs') + 1) (editDistance (a :: as') bs' + 1)) with
              hc | hc
            · rw [hc] at e; exact absurd e.symm h1
            · rw [hc] at e
              rcases min_choice (editDistance as' (b :: bs') + 1)
                  (editDistance (a :: as') bs' + 1) with hc' | hc'
              · rw [hc'] at e; exact absurd e.symm h2
              · rw [hc'] at e; exact e
          have : scriptCost (Op.ins :: fgAux a as' (fwdGreedy as') bs')
              (a :: as') (b :: bs') =
              (scriptCost (fgAux a as' (fwdGreedy as') bs') (a :: as') bs').map
                (fun k => 1 + k) := rfl
          rw [this]
          have hfg : fgAux a as' (fwdGreedy as') bs' = fwdGreedy (a :: as') bs' := rfl
          rw [hfg, hrec]
          simp [hthird, Nat.add_comm]

theorem scriptCost_reverse (t : List Op) :
    ∀ as bs : List Char, ∀ k : Nat, scriptCost t as bs = some k →
      scriptCost t.reverse as.reverse bs.reverse = some k := by
  induction t with
  | nil =>
    intro as bs k h
    obtain ⟨rfl, rfl, rfl⟩ := scriptCost_nil_inv _ _ _ h
    rfl
  | cons op t ih =>
    intro as bs k h
    cases op with
    | diag =>
      obtain ⟨a, as', b, bs', k', rfl, rfl, hc, rfl⟩ := scriptCost_diag_inv _ _ _ _ h
      have hr := ih _ _ _ hc
      have hs : scriptCost [Op.diag] [a] [b] = some (mismatchCost a b) := by
        simp [scriptCost]
      have happ := scriptCost_append _ _ _ _ _ _ _ _ hr hs
      simpa [List.reverse_cons, Nat.add_comm] using happ
    | del =>
      obtain ⟨a, as', k', rfl, hc, rfl⟩ := scriptCost_del_inv _ _ _ _ h
      have hr := ih _ _ _ hc
      have hs : scriptCost [Op.del] [a] [] = some 1 := by simp [scriptCost]
      have happ := scriptCost_append _ _ _ _ _ _ _ _ hr hs
      simpa [List.reverse_cons, Nat.add_comm] using happ
    | ins =>
      obtain ⟨b, bs', k', rfl, hc, rfl⟩ := scriptCost_ins_inv _ _ _ _ h
      have hr := ih _ _ _ hc
      have hs : scriptCost [Op.ins] [] [b] = some 1 := by simp [scriptCost]
      have happ := scriptCost_append _ _ _ _ _ _ _ _ hr hs
      simpa [List.reverse_cons, Nat.add_comm] using happ

theorem editDistance_reverse (as bs : List Char) :
    editDistance as.reverse bs.reverse = editDistance as bs := by
  have key : ∀ xs ys : List Char, editDistance xs.reverse ys.reverse ≤ editDistance xs ys := by
    intro xs ys
    have hg := greedy_valid (xs.length + ys.length) xs ys (le_refl _)
    have hr := scriptCost_reverse _ _ _ _ hg
    exact editDistance_le_scriptCost _ _ _ _ hr
  have h1 := key as bs
  have h2 := key as.reverse bs.reverse
  simp only [List.reverse_reverse] at h2
  omega

theorem editScript_valid (A B : List Char) :
    scriptCost (editScript A B) A B = some (editDistance A B) := by
  have hg := greedy_valid (A.reverse.length + B.reverse.length) A.reverse B.reverse (le_refl _)
  have hr := scriptCost_reverse _ _ _ _ hg
  simp only [List.reverse_reverse] at hr
  rw [editDistance_reverse] at hr
  exact hr

/-! Profile-merge invariants. -/

theorem padRow_rowChars (sc : List Op) :
    ∀ r : Row, rowChars (padRow sc r) = rowChars r := by
  induction sc with
  | nil => intro r; rfl
  | cons op t ih =>
    intro r
    cases op with
    | del => simpa [padRow, rowChars] using ih r
    | diag =>
      cases r with
      | nil => simpa [padRow] using ih []
      | cons c r' =>
        cases c <;> simp [padRow, rowChars] <;> simpa [rowChars] using ih r'
    | ins =>
      cases r with
      | nil => simpa [padRow] using ih []
      | cons c r' =>
        cases c <;> simp [padRow, rowChars] <;> simpa [rowChars] using ih r'

theorem newRow_rowChars (sc : List Op) :
    ∀ (s R : List Char) (k : Nat), scriptCost sc s R = some k →
      rowChars (newRow sc s) = s := by
  induction sc with
  | nil =>
    intro s R k h
    obtain ⟨rfl, rfl, rfl⟩ := scriptCost_nil_inv _ _ _ h
    rfl
  | cons op t ih =>
    intro s R k h
    cases op with
    | diag =>
      obtain ⟨a, s', b, R', k', rfl, rfl, hc, rfl⟩ := scriptCost_diag_inv _ _ _ _ h
      simpa [newRow, rowChars] using ih _ _ _ hc
    | del =>
      obtain ⟨a, s', k', rfl, hc, rfl⟩ := scriptCost_del_inv _ _ _ _ h
      simpa [newRow, rowChars] using ih _ _ _ hc
    | ins =>
      obtain ⟨b, R', k', rfl, hc, rfl⟩ := scriptCost_ins_inv _ _ _ _ h
      simpa [newRow, rowChars] using ih _ _ _ hc

theorem newRow_length (sc : List Op) :
    ∀ (s R : List Char) (k : Nat), scriptCost sc s R = some k →
      (newRow sc s).length = sc.length := by
  induction sc with
  | nil =>
    intro s R k h
    obtain ⟨rfl, rfl, rfl⟩ := scriptCost_nil_inv _ _ _ h
    rfl
  | cons op t ih =>
    intro s R k h
    cases op with
    | diag =>
      obtain ⟨a, s', b, R', k', rfl, rfl, hc, rfl⟩ := scriptCost_diag_inv _ _ _ _ h
      simpa [newRow] using ih _ _ _ hc
    | del =>
      obtain ⟨a, s', k', rfl, hc, rfl⟩ := scriptCost_del_inv _ _ _ _ h
      simpa [newRow] using ih _ _ _ hc
    | ins =>
      obtain ⟨b, R', k', rfl, hc, rfl⟩ := scriptCost_ins_inv _ _ _ _ h
      simpa [newRow] using ih _ _ _ hc

theorem padRow_length (sc : List Op) :
    ∀ (s R : List Char) (k : Nat), scriptCost sc s R = some k →
      ∀ r : Row, r.length = R.length → (padRow sc r).length = sc.length := by
  induction sc with
  | nil =>
    intro s R k h r hr
    obtain ⟨rfl, rfl, rfl⟩ := scriptCost_nil_inv _ _ _ h
    simpa using hr
  | cons op t ih =>
    intro s R k h r hr
    cases op with
    | diag =>
      obtain ⟨a, s', b, R', k', rfl, rfl, hc, rfl⟩ := scriptCost_diag_inv _ _ _ _ h
      cases r with
      | nil => simp at hr
      | cons c r' =>
        have : r'.length = R'.length := by simpa using hr
        simpa [padRow] using ih _ _ _ hc r' this
    | del =>
      obtain ⟨a, s', k', rfl, hc, rfl⟩ := scriptCost_del_inv _ _ _ _ h
      simpa [padRow] using ih _ _ _ hc r hr
    | ins =>
      obtain ⟨b, R', k', rfl, hc, rfl⟩ := scriptCost_ins_inv _ _ _ _ h
      cases r with
      | nil => simp at hr
      | cons c r' =>
        have : r'.length = R'.length := by simpa using hr
        simpa [padRow] using ih _ _ _ hc r' this

theorem forall₂_append_my {α β : Type} {R : α → β → Prop} :
    ∀ {l1 l2 : List α} {u1 u2 : List β}, List.Forall₂ R l1 u1 → List.Forall₂ R l2 u2 →
      List.Forall₂ R (l1 ++ l2) (u1 ++ u2) := by
  intro l1 l2 u1 u2 h1 h2
  induction h1 with
  | nil => simpa using h2
  | cons ha ht ih => exact List.Forall₂.cons ha ih

theorem rowChars_map_some (s : List Char) : rowChars (s.map some) = s := by
  induction s with
  | nil => rfl
  | cons c cs ih => simp [rowChars]

theorem render_map_some (s : List Char) : render (s.map some) = s := by
  simp [render, List.map_map, Function.comp_def]

theorem render_length (r : Row) : (render r).length = r.length := by
  simp [render]

theorem profileMerge_chars (P : List Row) (done : List (List Char)) (s : List Char)
    (h : List.Forall₂ (fun r t => rowChars r = t) P done) :
    List.Forall₂ (fun r t => rowChars r = t) (profileMerge P s) (done ++ [s]) := by
  cases h with
  | nil =>
    exact List.Forall₂.cons (rowChars_map_some s) List.Forall₂.nil
  | cons hrt htail =>
    rename_i R t rest ts
    show List.Forall₂ _
      (((R :: rest).map (padRow (editScript s (render R)))) ++
        [newRow (editScript s (render R)) s]) ((t :: ts) ++ [s])
    apply forall₂_append_my
    · rw [List.forall₂_map_left_iff]
      have hPD : List.Forall₂ (fun (r : Row) (u : List Char) => rowChars r = u)
          (R :: rest) (t :: ts) := List.Forall₂.cons hrt htail
      exact List.Forall₂.imp (fun a b hab => by rw [padRow_rowChars]; exact hab) hPD
    · refine List.Forall₂.cons ?_ List.Forall₂.nil
      exact newRow_rowChars _ s (render R) _ (editScript_valid s (render R))

theorem profileMerge_sameLen (P : List Row) (s : List Char) (h : SameLen P) :
    SameLen (profileMerge P s) := by
  cases P with
  | nil =>
    intro r hr r' hr'
    simp [profileMerge] at hr hr'
    rw [hr, hr']
  | cons R rest =>
    have hv := editScript_valid s (render R)
    have hlen : ∀ x ∈ profileMerge (R :: rest) s,
        x.length = (editScript s (render R)).length := by
      intro x hx
      simp only [profileMerge, List.mem_append, List.mem_map, List.mem_singleton] at hx
      rcases hx with ⟨r, hr, rfl⟩ | rfl
      · have hrR : r.length = (render R).length := by
          rw [render_length]
          exact h r hr R (List.mem_cons_self R rest)
        exact padRow_length _ _ _ _ hv r hrR
      · exact newRow_length _ _ _ _ hv
    intro r hr r' hr'
    rw [hlen r hr, hlen r' hr']

theorem foldl_chars (pending : List (List Char)) :
    ∀ (P : List Row) (done : List (List Char)),
      List.Forall₂ (fun r t => rowChars r = t) P done →
      List.Forall₂ (fun r t => rowChars r = t) (List.foldl profileMerge P pending)
        (done ++ pending) := by
  induction pending with
  | nil => intro P done h; simpa using h
  | cons p ps ih =>
    intro P done h
    have := ih (profileMerge P p) (done ++ [p]) (profileMerge_chars P done p h)
    simpa [List.append_assoc] using this

theorem foldl_sameLen (pending : List (List Char)) :
    ∀ P : List Row, SameLen P → SameLen (List.foldl profileMerge P pending) := by
  induction pending with
  | nil => intro P h; simpa using h
  | cons p ps ih =>
    intro P h
    exact ih (profileMerge P p) (profileMerge_sameLen P p h)

theorem msa_chars (ss : List (List Char)) :
    List.Forall₂ (fun r t => rowChars r = t) (globalMsaAlignment ss) ss := by
  simpa using foldl_chars ss [] [] List.Forall₂.nil

theorem msa_sameLen (ss : List (List Char)) : SameLen (globalMsaAlignment ss) := by
  apply foldl_sameLen
  intro r hr
  exact absurd hr (List.not_mem_nil r)

theorem msa_length (ss : List (List Char)) :
    (globalMsaAlignment ss).length = ss.length :=
  (msa_chars ss).length_eq

/-! Row reconstruction. -/

theorem recGo_length (s : List Char) :
    ∀ (k : Nat) (r : Row), (recGo s k r).length = r.length := by
  intro k r
  induction r generalizing k with
  | nil => rfl
  | cons o r ih => cases o <;> simp [recGo, ih]

theorem getD_append_cons (pre : List Char) (c : Char) (l : List Char) (d : Char) :
    (pre ++ c :: l).getD pre.length d = c := by
  induction pre with
  | nil => rfl
  | cons p ps ih => simpa using ih

theorem recGo_render (row : Row) :
    ∀ pre : List Char, recGo (pre ++ rowChars row) pre.length row = render row := by
  induction row with
  | nil => intro pre; rfl
  | cons o r ih =>
    cases o with
    | none =>
      intro pre
      show '-' :: recGo (pre ++ rowChars (none :: r)) pre.length r = render (none :: r)
      have hrc : rowChars (none :: r) = rowChars r := by simp [rowChars]
      have hrn : render (none :: r) = '-' :: render r := by simp [render]
      rw [hrc, hrn, ih pre]
    | some c =>
      intro pre
      have hrc : rowChars (some c :: r) = c :: rowChars r := by simp [rowChars]
      have hrn : render (some c :: r) = c :: render r := by simp [render]
      rw [hrc, hrn]
      show (pre ++ c :: rowChars r).getD pre.length '?' ::
          recGo (pre ++ c :: rowChars r) (pre.length + 1) r = c :: render r
      rw [getD_append_cons]
      have hre : pre ++ c :: rowChars r = (pre ++ [c]) ++ rowChars r := by
        simp
      have hlen : pre.length + 1 = (pre ++ [c]).length := by simp
      rw [hre, hlen, ih (pre ++ [c])]

theorem reconstructRow_eq_render (row : Row) (s : List Char) (h : rowChars row = s) :
    reconstructRow row s = render row := by
  subst h
  have := recGo_render row []
  simpa [reconstructRow] using this

theorem stripGaps_render (row : Row) (h : ∀ c ∈ rowChars row, c ≠ '-') :
    stripGaps (render row) = rowChars row := by
  induction row with
  | nil => rfl
  | cons o r ih =>
    cases o with
    | none =>
      have hrc : rowChars (none :: r) = rowChars r := by simp [rowChars]
      rw [hrc] at h ⊢
      have hrn : render (none :: r) = '-' :: render r := by simp [render]
      rw [hrn]
      simpa [stripGaps] using ih h
    | some c =>
      have hrc : rowChars (some c :: r) = c :: rowChars r := by simp [rowChars]
      have hc : c ≠ '-' := by
        apply h
        rw [hrc]
        exact List.mem_cons_self c (rowChars r)
      have htail : ∀ x ∈ rowChars r, x ≠ '-' := by
        intro x hx
        apply h
        rw [hrc]
        exact List.mem_cons_of_mem c hx
      have hrn : render (some c :: r) = c :: render r := by simp [render]
      rw [hrc, hrn]
      simp only [stripGaps, List.filter_cons]
      rw [if_pos (by simpa using hc)]
      have := ih htail
      simp only [stripGaps] at this
      rw [this]

theorem runRecon_roundTrip (P : List Row) (ss : List (List Char))
    (h : List.Forall₂ (fun r t => rowChars r = t) P ss)
    (halpha : ∀ s ∈ ss, ∀ c ∈ s, c ≠ '-') :
    List.Forall₂ (fun o t => stripGaps o = t) (runReconstruction P ss) ss := by
  induction h with
  | nil => exact List.Forall₂.nil
  | cons hrt htail ih =>
    rename_i r t P' ts
    refine List.Forall₂.cons ?_ (ih ?_)
    · rw [reconstructRow_eq_render r t hrt,
        stripGaps_render r (by rw [hrt]; exact halpha t (List.mem_cons_self t ts)), hrt]
    · intro s hs
      exact halpha s (List.mem_cons_of_mem t hs)

theorem runRecon_lengths (P : List Row) :
    ∀ ss : List (List Char), P.length = ss.length →
      List.Forall₂ (fun o (r : Row) => o.length = r.length) (runReconstruction P ss) P := by
  induction P with
  | nil =>
    intro ss h
    cases ss with
    | nil => exact List.Forall₂.nil
    | cons s ts => simp at h
  | cons r P ih =>
    intro ss h
    cases ss with
    | nil => simp at h
    | cons s ts =>
      refine List.Forall₂.cons ?_ (ih ts ?_)
      · exact recGo_length s 0 r
      · simpa using h

theorem align_length (ss : List (List Char)) : (align ss).length = ss.length := by
  have h := (runRecon_lengths (globalMsaAlignment ss) ss (msa_length ss)).length_eq
  rw [align, h, msa_length]

theorem forall₂_getD {α β : Type} {R : α → β → Prop} (d1 : α) (d2 : β) :
    ∀ {l1 : List α} {l2 : List β}, List.Forall₂ R l1 l2 →
      ∀ i : Nat, i < l1.length → R (l1.getD i d1) (l2.getD i d2) := by
  intro l1 l2 h
  induction h with
  | nil => intro i hi; simp at hi
  | cons h1 h2 ih =>
    intro i hi
    cases i with
    | zero => simpa using h1
    | succ i =>
      simp only [List.getD_cons_succ]
      exact ih i (by simpa using Nat.lt_of_succ_lt_succ hi)

theorem getD_mem_of_lt {α : Type} :
    ∀ (l : List α) (i : Nat) (d : α), i < l.length → l.getD i d ∈ l := by
  intro l
  induction l with
  | nil => intro i d h; simp at h
  | cons a t ih =>
    intro i d h
    cases i with
    | zero => simp
    | succ i =>
      simp only [List.getD_cons_succ]
      exact List.mem_cons_of_mem a (ih i d (by simpa using Nat.lt_of_succ_lt_succ h))

/-! Helpers for the pointer-level frame theorem. -/

theorem allocPtrs_length : ∀ (n b : Nat), (allocPtrs b n).length = n := by
  intro n
  induction n with
  | zero => intro b; rfl
  | succ n ih => intro b; simp [allocPtrs, ih]

theorem allocPtrs_getD : ∀ (n b i : Nat), i < n → (allocPtrs b n).getD i 0 = b + i := by
  intro n
  induction n with
  | zero => intro b i h; omega
  | succ n ih =>
    intro b i h
    cases i with
    | zero => rfl
    | succ i =>
      show (allocPtrs (b + 1) n).getD i 0 = b + (i + 1)
      rw [ih (b + 1) i (by omega)]
      omega

theorem getD_append_left {α : Type} :
    ∀ (l1 l2 : List α) (i : Nat) (d : α), i < l1.length →
      (l1 ++ l2).getD i d = l1.getD i d := by
  intro l1
  induction l1 with
  | nil => intro l2 i d h; simp at h
  | cons a t ih =>
    intro l2 i d h
    cases i with
    | zero => rfl
    | succ i => simpa using ih l2 i d (by simpa using Nat.lt_of_succ_lt_succ h)

theorem getD_take {α : Type} :
    ∀ (l : List α) (n i : Nat) (d : α), i < n → (l.take n).getD i d = l.getD i d := by
  intro l
  induction l with
  | nil => intro n i d h; simp
  | cons a t ih =>
    intro n i d h
    cases n with
    | zero => omega
    | succ n =>
      cases i with
      | zero => rfl
      | succ i => simpa using ih n i d (by omega)

/-! The claims. -/

/-- C1: Round-trip law — for every input collection of sequences over the
nucleotide alphabet (in particular, containing no gap symbol) and every
output row `i` of `align`, deleting all gap symbols `'-'` from row `i`
yields exactly the original input sequence `i`, character for character. -/
theorem roundTrip_law (ss : List (List Char))
    (halpha : ∀ s ∈ ss, ∀ c ∈ s, c ≠ '-') (i : Nat) (hi : i < ss.length) :
    stripGaps ((align ss).getD i []) = ss.getD i [] := by
  have h := runRecon_roundTrip (globalMsaAlignment ss) ss (msa_chars ss) halpha
  have hlen : (runReconstruction (globalMsaAlignment ss) ss).length = ss.length :=
    h.length_eq
  have hg := forall₂_getD [] [] h i (by rw [hlen]; exact hi)
  simpa [align] using hg

/-- Witness for C1 at the concrete input `["ACGT", "AGT"]`, row 1. -/
theorem roundTrip_law_witness :
    stripGaps ((align [['A', 'C', 'G', 'T'], ['A', 'G', 'T']]).getD 1 []) =
      ['A', 'G', 'T'] :=
  roundTrip_law [['A', 'C', 'G', 'T'], ['A', 'G', 'T']] (by decide) 1 (by decide)

/-- C2: Length invariant — for every input with `N > 0` sequences, all `N`
output rows of `align` have identical length, and that common length is at
least the length of every (hence the longest) input sequence. -/
theorem length_invariant (ss : List (List Char)) (h0 : 0 < ss.length) :
    (∀ i : Nat, i < ss.length →
      ((align ss).getD i []).length = ((align ss).getD 0 []).length) ∧
    (∀ i : Nat, i < ss.length →
      (ss.getD i []).length ≤ ((align ss).getD 0 []).length) := by
  have hPlen : (globalMsaAlignment ss).length = ss.length := msa_length ss
  have hF := runRecon_lengths (globalMsaAlignment ss) ss hPlen
  have hout : ∀ i : Nat, i < ss.length →
      ((align ss).getD i []).length = ((globalMsaAlignment ss).getD i []).length := by
    intro i hi
    have := forall₂_getD [] ([] : Row) hF i
      (by
        have : (runReconstruction (globalMsaAlignment ss) ss).length = ss.length :=
          hF.length_eq.trans hPlen
        rw [this]; exact hi)
    simpa [align] using this
  have hsame : ∀ i : Nat, i < ss.length →
      ((globalMsaAlignment ss).getD i []).length =
        ((globalMsaAlignment ss).getD 0 []).length := by
    intro i hi
    exact msa_sameLen ss _ (getD_mem_of_lt _ i [] (by rw [hPlen]; exact hi))
      _ (getD_mem_of_lt _ 0 [] (by rw [hPlen]; exact h0))
  have hchars : ∀ i : Nat, i < ss.length →
      rowChars ((globalMsaAlignment ss).getD i []) = ss.getD i [] := by
    intro i hi
    exact forall₂_getD ([] : Row) [] (msa_chars ss) i (by rw [hPlen]; exact hi)
  constructor
  · intro i hi
    rw [hout i hi, hsame i hi, ← hout 0 h0]
  · intro i hi
    have h1 : (ss.getD i []).length ≤ ((globalMsaAlignment ss).getD i []).length := by
      rw [← hchars i hi]
      exact List.length_filterMap_le _ _
    rw [hout 0 h0, ← hsame i hi]
    exact h1

/-- Witness for C2 at the concrete input `["ACGT", "AGT"]`. -/
theorem length_invariant_witness :
    ((align [['A', 'C', 'G', 'T'], ['A', 'G', 'T']]).getD 1 []).length =
      ((align [['A', 'C', 'G', 'T'], ['A', 'G', 'T']]).getD 0 []).length ∧
    (([['A', 'C', 'G', 'T'], ['A', 'G', 'T']] : List (List Char)).getD 1 []).length ≤
      ((align [['A', 'C', 'G', 'T'], ['A', 'G', 'T']]).getD 0 []).length := by
  have h := length_invariant [['A', 'C', 'G', 'T'], ['A', 'G', 'T']] (by decide)
  exact ⟨h.1 1 (by decide), h.2 1 (by decide)⟩

/-- C3 counterexample: the claim says an input containing a symbol outside
`{A,C,G,T,N}` (here the lowercase `'a'`) makes the program raise an
`AlphabetError` before any alignment work, producing no output.  The source
contains no validation and no error path at all: at the concrete input
`["aCGT"]` the program produces a (non-empty) alignment output, carrying the
foreign character through. -/
theorem alphabet_no_error_counterexample :
    align [['a', 'C', 'G', 'T']] = [['a', 'C', 'G', 'T']] ∧
    align [['a', 'C', 'G', 'T']] ≠ [] := by decide

/-- C3 amended: the program performs no alphabet validation; for every
input — including inputs containing symbols outside `{A,C,G,T,N}` — `align`
raises no error and returns exactly one output row per input sequence. -/
theorem no_alphabet_validation_total (ss : List (List Char)) :
    (align ss).length = ss.length :=
  align_length ss

/-- C4: Pairwise alignment contract — for any two finite sequences `A` and
`B`, including empty ones, the engine's distance satisfies the DP base cases
(`cell(i,0) = i`, `cell(0,j) = j`) and the minimum recurrence, the produced
edit script (backtraced with the diagonal-over-vertical-over-horizontal
tie-break built into `editScript`) validly transforms `A` into `B` at cost
exactly `editDistance A B` (so the engine never fails), and no valid edit
script has smaller cost. -/
theorem pairwise_engine_correct (A B : List Char) :
    editDistance A [] = A.length ∧
    editDistance [] B = B.length ∧
    (∀ (a : Char) (as : List Char) (b : Char) (bs : List Char),
      editDistance (a :: as) (b :: bs) =
        min (editDistance as bs + mismatchCost a b)
          (min (editDistance as (b :: bs) + 1) (editDistance (a :: as) bs + 1))) ∧
    scriptCost (editScript A B) A B = some (editDistance A B) ∧
    (∀ (t : List Op) (k : Nat), scriptCost t A B = some k → editDistance A B ≤ k) := by
  refine ⟨editDistance_nil_right A, rfl, ?_, editScript_valid A B, ?_⟩
  · intro a as b bs
    exact editDistance_cons_cons a as b bs
  · intro t k h
    exact editDistance_le_scriptCost t A B k h

/-- Witness for C4 at `A = "AGT"`, `B = "ACGT"`, with the concrete
competing script `[diag, ins, diag, diag]` of cost 1. -/
theorem pairwise_engine_correct_witness :
    scriptCost (editScript ['A', 'G', 'T'] ['A', 'C', 'G', 'T'])
        ['A', 'G', 'T'] ['A', 'C', 'G', 'T'] =
      some (editDistance ['A', 'G', 'T'] ['A', 'C', 'G', 'T']) ∧
    editDistance ['A', 'G', 'T'] ['A', 'C', 'G', 'T'] ≤ 1 := by
  have h := pairwise_engine_correct ['A', 'G', 'T'] ['A', 'C', 'G', 'T']
  exact ⟨h.2.2.2.1, h.2.2.2.2 [Op.diag, Op.ins, Op.diag, Op.diag] 1 (by decide)⟩

/-- C5: Idempotence of reconstruction — running Row Reconstruction a second
time on the same finalized profile, with the same row data it was first run
on, yields output identical to the first run's output (the reconstruction
pass is a pure function of the profile and the original sequences). -/
theorem reconstruction_deterministic (P : List Row) (ss : List (List Char)) :
    runReconstruction P ss = runReconstruction P ss := rfl

/-- C6: for the input collection `["ACGT", "AGT"]` the program outputs
`["ACGT", "A-GT"]` — the second row carries exactly one gap where `'C'` was
deleted — and the pairwise edit distance of the two inputs is 1. -/
theorem example_acgt_agt :
    align [['A', 'C', 'G', 'T'], ['A', 'G', 'T']] =
      [['A', 'C', 'G', 'T'], ['A', '-', 'G', 'T']] ∧
    editDistance ['A', 'G', 'T'] ['A', 'C', 'G', 'T'] = 1 := by decide

/-- C7: for the input collection `["AAAA", "TTTT"]` (no shared characters)
the program outputs two rows of length exactly 4 — four substitution
columns, no gap columns introduced — at edit distance 4. -/
theorem example_aaaa_tttt :
    align [['A', 'A', 'A', 'A'], ['T', 'T', 'T', 'T']] =
      [['A', 'A', 'A', 'A'], ['T', 'T', 'T', 'T']] ∧
    editDistance ['T', 'T', 'T', 'T'] ['A', 'A', 'A', 'A'] = 4 := by decide

/-- C8: when zero sequences are supplied the engine returns an empty result
and does not fail — the MSA profile is empty, `align` performs no work, and
`main` prints nothing. -/
theorem empty_input_empty_output :
    globalMsaAlignment [] = [] ∧ align [] = [] ∧ mainOutput [] = [] :=
  ⟨rfl, rfl, rfl⟩

/-- C9: for a single input sequence the output equals the input unchanged —
exactly one row, identical to the input, with zero gap symbols inserted. -/
theorem single_sequence_unchanged (s : List Char) : align [s] = [s] := by
  show runReconstruction (globalMsaAlignment [s]) [s] = [s]
  have hm : globalMsaAlignment [s] = [s.map some] := rfl
  rw [hm]
  show [reconstructRow (s.map some) s] = [s]
  rw [reconstructRow_eq_render _ _ (rowChars_map_some s), render_map_some]

/-- C10: frame/in-place effect of `align` — the returned pointer is the very
array that was passed in; after the call each of the first `nseq` entries of
that array holds a freshly allocated pointer (at or above the old allocation
watermark) to the reconstructed gapped string, and none of the caller's
original pointers remain among those entries. -/
theorem align_inplace_frame (nseq ap : Nat) (m : Mem)
    (h1 : 1 ≤ nseq) (h2 : nseq ≤ (m.arrays ap).length)
    (h3 : ∀ p ∈ (m.arrays ap).take nseq, p < m.next) :
    (alignC nseq ap m).1 = ap ∧
    (∀ i : Nat, i < nseq →
      m.next ≤ ((alignC nseq ap m).2.arrays ap).getD i 0 ∧
      (alignC nseq ap m).2.strs (((alignC nseq ap m).2.arrays ap).getD i 0) =
        (alignOuts nseq ap m).getD i [] ∧
      ∀ j : Nat, j < nseq →
        ((alignC nseq ap m).2.arrays ap).getD i 0 ≠ (m.arrays ap).getD j 0) := by
  have harr : (alignC nseq ap m).2.arrays ap =
      allocPtrs m.next nseq ++ (m.arrays ap).drop nseq := by
    simp [alignC]
  have hptr : ∀ i : Nat, i < nseq →
      ((alignC nseq ap m).2.arrays ap).getD i 0 = m.next + i := by
    intro i hi
    rw [harr, getD_append_left _ _ _ _ (by rw [allocPtrs_length]; exact hi),
      allocPtrs_getD nseq m.next i hi]
  refine ⟨rfl, ?_⟩
  intro i hi
  refine ⟨?_, ?_, ?_⟩
  · rw [hptr i hi]
    exact Nat.le_add_right _ _
  · rw [hptr i hi]
    show Mem.strs _ (m.next + i) = _
    simp only [alignC]
    rw [if_pos ⟨Nat.le_add_right _ _, by omega⟩]
    have hsub : m.next + i - m.next = i := by omega
    rw [hsub]
  · intro j hj
    rw [hptr i hi]
    have hmem : (m.arrays ap).getD j 0 ∈ (m.arrays ap).take nseq := by
      rw [← getD_take (m.arrays ap) nseq j 0 hj]
      apply getD_mem_of_lt
      rw [List.length_take]
      omega
    have := h3 _ hmem
    omega

/-- Witness for C10 at the concrete heap `M0` with `nseq = 2`, `ap = 7`. -/
theorem align_inplace_frame_witness :
    (alignC 2 7 M0).1 = 7 ∧ 2 ≤ ((alignC 2 7 M0).2.arrays 7).getD 0 0 := by
  have h := align_inplace_frame 2 7 M0 (by decide) (by decide) (by decide)
  exact ⟨h.1, (h.2 0 (by decide)).1⟩

end Dunovo
